import Mathlib

/-!
# Verification of the gossip wire-protocol core (`src/protocol.rs`)

This file is a shallow embedding of the protocol module of the repository:
the signed CRDS record model (`CrdsData` / `CrdsValue`), the address-space
partitioning filter (`CrdsFilter`, `compute_mask`, `mask_bits`), and the
ping/pong liveness exchange (`PingGeneric` / `Pong`).

Modelling conventions:
* Wire bytes are natural numbers; byte strings are `List ℕ`.  Machine
  integers are naturals with explicit bounds (`n < 256 ^ k`) where the code
  relies on the width.
* The canonical wire encoding is bincode 1.x with its default options as
  used by `bincode::serialize`: fixed-width little-endian integers, `u64`
  length prefixes for sequences, `u32` variant tags for enums, one-byte
  tags for `Option`.  `solana_sdk::transaction::Transaction` additionally
  uses solana's `short_vec` compact-u16 length encoding for its inner
  vectors.
* Fallible Rust code (a `Result` consumed by `?` or `.expect`, a panicking
  `assert!`) is modelled with `Option`: `none` is the fatal outcome.
  Integer arithmetic is modelled with Rust's overflow-checked semantics
  (the semantics of the profile the crate's own tests run under): an
  arithmetic overflow in `2u64.pow` or in `64 - mask_bits` is a panic,
  hence `none`; bits shifted out by `<<` are silently discarded, which is
  not an overflow in Rust under any profile.
* The cryptographic primitives (ed25519 signing, sha256) are external
  capabilities per the spec; they enter as parameters (`SignScheme`, a hash
  function `List ℕ → List ℕ`) and theorems assume exactly the contract the
  spec assigns to them.
-/

namespace GossipProtocol

/-! ## Byte-level primitives of the bincode encoding -/

/-- `k` little-endian bytes of `n`: the bincode fixed-int encoding of a
`k`-byte unsigned integer (`u8`/`u16`/`u32`/`u64`/`usize`). -/
def toLE : ℕ → ℕ → List ℕ
  | 0, _ => []
  | k + 1, n => n % 256 :: toLE k (n / 256)

/-- Value of a little-endian byte string. -/
def fromLE : List ℕ → ℕ
  | [] => 0
  | b :: l => b + 256 * fromLE l

/-- Decode exactly `k` raw bytes from the stream. -/
def decFixed (k : ℕ) (l : List ℕ) : Option (List ℕ × List ℕ) :=
  if k ≤ l.length then some (l.take k, l.drop k) else none

/-- Decode a `k`-byte little-endian unsigned integer. -/
def decUInt (k : ℕ) (l : List ℕ) : Option (ℕ × List ℕ) :=
  (decFixed k l).map fun p => (fromLE p.1, p.2)

/-- Concatenated encodings of the elements of a list. -/
def encList (enc : α → List ℕ) (xs : List α) : List ℕ :=
  (xs.map enc).flatten

/-- Concatenated encodings of the elements, any of which may fail. -/
def encListO (enc : α → Option (List ℕ)) : List α → Option (List ℕ)
  | [] => some []
  | x :: xs => (enc x).bind fun b => (encListO enc xs).map fun bs => b ++ bs

/-- Decode `n` consecutive elements. -/
def decList (dec : List ℕ → Option (α × List ℕ)) :
    ℕ → List ℕ → Option (List α × List ℕ)
  | 0, l => some ([], l)
  | n + 1, l =>
    (dec l).bind fun p => (decList dec n p.2).map fun q => (p.1 :: q.1, q.2)

/-- bincode sequence (`Vec<T>`, boxed slice, `BTreeSet<T>`): a `u64` length
followed by the elements. -/
def encVec (enc : α → List ℕ) (xs : List α) : List ℕ :=
  toLE 8 xs.length ++ encList enc xs

/-- Decode a bincode sequence. -/
def decVec (dec : List ℕ → Option (α × List ℕ)) (l : List ℕ) :
    Option (List α × List ℕ) :=
  (decUInt 8 l).bind fun p => decList dec p.1 p.2

/-- bincode `Option<u32>`: a one-byte tag (0 = `None`, 1 = `Some`) then the
payload. -/
def encOptionU32 : Option ℕ → List ℕ
  | none => [0]
  | some n => 1 :: toLE 4 n

/-- Decode a bincode `Option<u32>`; any tag other than 0/1 is an error. -/
def decOptionU32 : List ℕ → Option (Option ℕ × List ℕ)
  | 0 :: r => some (none, r)
  | 1 :: r => (decUInt 4 r).map fun p => (some p.1, p.2)
  | _ => none

/-- Solana `short_vec` compact-u16 length encoding: 7 value bits per byte,
least significant group first, high bit set on every byte but the last. -/
def encShortU16 (n : ℕ) : List ℕ :=
  if n < 128 then [n]
  else if n < 16384 then [n % 128 + 128, n / 128]
  else [n % 128 + 128, (n / 128) % 128 + 128, n / 16384]

/-- Compact-u16 decoder; mirrors solana's `short_vec` visitor, which rejects
overlong (aliased) encodings and values that do not fit in a `u16`. -/
def decShortU16 : List ℕ → Option (ℕ × List ℕ)
  | [] => none
  | b0 :: r0 =>
    if b0 < 128 then some (b0, r0)
    else
      match r0 with
      | [] => none
      | b1 :: r1 =>
        if b1 = 0 then none
        else if b1 < 128 then some (b0 - 128 + 128 * b1, r1)
        else
          match r1 with
          | [] => none
          | b2 :: r2 =>
            if b2 = 0 ∨ 4 ≤ b2 then none
            else some (b0 - 128 + 128 * (b1 - 128) + 16384 * b2, r2)

/-- Solana `short_vec` of `T`: compact-u16 length then the elements.
Serialization fails when the length exceeds `u16::MAX` (the source's
`try_into` error). -/
def encShortVec (enc : α → List ℕ) (xs : List α) : Option (List ℕ) :=
  if xs.length < 65536 then some (encShortU16 xs.length ++ encList enc xs)
  else none

/-- `short_vec` whose element encoder may itself fail. -/
def encShortVecO (enc : α → Option (List ℕ)) (xs : List α) : Option (List ℕ) :=
  if xs.length < 65536 then
    (encListO enc xs).map fun b => encShortU16 xs.length ++ b
  else none

/-- Decode a solana `short_vec`. -/
def decShortVec (dec : List ℕ → Option (α × List ℕ)) (l : List ℕ) :
    Option (List α × List ℕ) :=
  (decShortU16 l).bind fun p => decList dec p.1 p.2

/-! ## `std::net::SocketAddr` as serde writes it to a binary format

A two-variant enum (`u32` tag, 0 = `V4`, 1 = `V6`); the payload is the ip
octets (4 or 16 raw bytes) followed by the `u16` port. -/

inductive SockAddr where
  | v4 (ip : List ℕ) (port : ℕ)
  | v6 (ip : List ℕ) (port : ℕ)

/-- Validity of a socket address: octet-array length and port width. -/
def WfSockAddr : SockAddr → Prop
  | .v4 ip port => ip.length = 4 ∧ port < 256 ^ 2
  | .v6 ip port => ip.length = 16 ∧ port < 256 ^ 2

def encSockAddr : SockAddr → List ℕ
  | .v4 ip port => toLE 4 0 ++ (ip ++ toLE 2 port)
  | .v6 ip port => toLE 4 1 ++ (ip ++ toLE 2 port)

def decSockAddr (l : List ℕ) : Option (SockAddr × List ℕ) :=
  (decUInt 4 l).bind fun p =>
    match p.1 with
    | 0 => (decFixed 4 p.2).bind fun q =>
        (decUInt 2 q.2).map fun w => (SockAddr.v4 q.1 w.1, w.2)
    | 1 => (decFixed 16 p.2).bind fun q =>
        (decUInt 2 q.2).map fun w => (SockAddr.v6 q.1 w.1, w.2)
    | _ => none

/-! ## CRDS payload structures (`src/protocol.rs` lines 16–188)

Rust field `from` is named `from_pk` here (`from` is a Lean keyword).
`Pubkey` is 32 raw bytes, `Hash` 32 raw bytes, `Signature` 64 raw bytes. -/

structure LegacyContactInfo where
  id : List ℕ
  gossip : SockAddr
  tvu : SockAddr
  tvu_forwards : SockAddr
  repair : SockAddr
  tpu : SockAddr
  tpu_forwards : SockAddr
  tpu_vote : SockAddr
  rpc : SockAddr
  rpc_pubsub : SockAddr
  serve_repair : SockAddr
  wallclock : ℕ
  shred_version : ℕ

def WfLegacyContactInfo (c : LegacyContactInfo) : Prop :=
  c.id.length = 32 ∧ WfSockAddr c.gossip ∧ WfSockAddr c.tvu ∧
    WfSockAddr c.tvu_forwards ∧ WfSockAddr c.repair ∧ WfSockAddr c.tpu ∧
    WfSockAddr c.tpu_forwards ∧ WfSockAddr c.tpu_vote ∧ WfSockAddr c.rpc ∧
    WfSockAddr c.rpc_pubsub ∧ WfSockAddr c.serve_repair ∧
    c.wallclock < 256 ^ 8 ∧ c.shred_version < 256 ^ 2

def encLegacyContactInfo (c : LegacyContactInfo) : List ℕ :=
  c.id ++ (encSockAddr c.gossip ++ (encSockAddr c.tvu ++
    (encSockAddr c.tvu_forwards ++ (encSockAddr c.repair ++
    (encSockAddr c.tpu ++ (encSockAddr c.tpu_forwards ++
    (encSockAddr c.tpu_vote ++ (encSockAddr c.rpc ++
    (encSockAddr c.rpc_pubsub ++ (encSockAddr c.serve_repair ++
    (toLE 8 c.wallclock ++ toLE 2 c.shred_version)))))))))))

def decLegacyContactInfo (l : List ℕ) : Option (LegacyContactInfo × List ℕ) :=
  (decFixed 32 l).bind fun i =>
  (decSockAddr i.2).bind fun a1 =>
  (decSockAddr a1.2).bind fun a2 =>
  (decSockAddr a2.2).bind fun a3 =>
  (decSockAddr a3.2).bind fun a4 =>
  (decSockAddr a4.2).bind fun a5 =>
  (decSockAddr a5.2).bind fun a6 =>
  (decSockAddr a6.2).bind fun a7 =>
  (decSockAddr a7.2).bind fun a8 =>
  (decSockAddr a8.2).bind fun a9 =>
  (decSockAddr a9.2).bind fun a10 =>
  (decUInt 8 a10.2).bind fun w =>
  (decUInt 2 w.2).map fun sv =>
  (⟨i.1, a1.1, a2.1, a3.1, a4.1, a5.1, a6.1, a7.1, a8.1, a9.1, a10.1,
    w.1, sv.1⟩, sv.2)

/-! `solana_sdk::transaction::Transaction` and its message, as serde/bincode
encode them (inner vectors use `short_vec`). -/

structure MessageHeader where
  num_required_signatures : ℕ
  num_readonly_signed_accounts : ℕ
  num_readonly_unsigned_accounts : ℕ

def WfMessageHeader (h : MessageHeader) : Prop :=
  h.num_required_signatures < 256 ∧ h.num_readonly_signed_accounts < 256 ∧
    h.num_readonly_unsigned_accounts < 256

def encMessageHeader (h : MessageHeader) : List ℕ :=
  toLE 1 h.num_required_signatures ++ (toLE 1 h.num_readonly_signed_accounts ++
    toLE 1 h.num_readonly_unsigned_accounts)

def decMessageHeader (l : List ℕ) : Option (MessageHeader × List ℕ) :=
  (decUInt 1 l).bind fun a =>
  (decUInt 1 a.2).bind fun b =>
  (decUInt 1 b.2).map fun c => (⟨a.1, b.1, c.1⟩, c.2)

structure CompiledInstruction where
  program_id_index : ℕ
  accounts : List ℕ
  data : List ℕ

def WfCompiledInstruction (ci : CompiledInstruction) : Prop :=
  ci.program_id_index < 256 ∧
    ci.accounts.length < 65536 ∧ (∀ b ∈ ci.accounts, b < 256) ∧
    ci.data.length < 65536 ∧ ∀ b ∈ ci.data, b < 256

def encCompiledInstruction (ci : CompiledInstruction) : Option (List ℕ) :=
  (encShortVec (toLE 1) ci.accounts).bind fun ab =>
    (encShortVec (toLE 1) ci.data).map fun db =>
      toLE 1 ci.program_id_index ++ (ab ++ db)

def decCompiledInstruction (l : List ℕ) :
    Option (CompiledInstruction × List ℕ) :=
  (decUInt 1 l).bind fun p =>
  (decShortVec (decUInt 1) p.2).bind fun a =>
  (decShortVec (decUInt 1) a.2).map fun d => (⟨p.1, a.1, d.1⟩, d.2)

structure Message where
  header : MessageHeader
  account_keys : List (List ℕ)
  recent_blockhash : List ℕ
  instructions : List CompiledInstruction

def WfMessage (m : Message) : Prop :=
  WfMessageHeader m.header ∧
    m.account_keys.length < 65536 ∧ (∀ k ∈ m.account_keys, k.length = 32) ∧
    m.recent_blockhash.length = 32 ∧
    m.instructions.length < 65536 ∧ ∀ i ∈ m.instructions, WfCompiledInstruction i

def encMessage (m : Message) : Option (List ℕ) :=
  (encShortVec (fun k => k) m.account_keys).bind fun kb =>
    (encShortVecO encCompiledInstruction m.instructions).map fun ib =>
      encMessageHeader m.header ++ (kb ++ (m.recent_blockhash ++ ib))

def decMessage (l : List ℕ) : Option (Message × List ℕ) :=
  (decMessageHeader l).bind fun h =>
  (decShortVec (decFixed 32) h.2).bind fun ks =>
  (decFixed 32 ks.2).bind fun bh =>
  (decShortVec decCompiledInstruction bh.2).map fun ins =>
  (⟨h.1, ks.1, bh.1, ins.1⟩, ins.2)

structure Transaction where
  signatures : List (List ℕ)
  message : Message

def WfTransaction (t : Transaction) : Prop :=
  t.signatures.length < 65536 ∧ (∀ s ∈ t.signatures, s.length = 64) ∧
    WfMessage t.message

def encTransaction (t : Transaction) : Option (List ℕ) :=
  (encShortVec (fun s => s) t.signatures).bind fun sb =>
    (encMessage t.message).map fun mb => sb ++ mb

def decTransaction (l : List ℕ) : Option (Transaction × List ℕ) :=
  (decShortVec (decFixed 64) l).bind fun s =>
  (decMessage s.2).map fun m => (⟨s.1, m.1⟩, m.2)

structure Vote where
  from_pk : List ℕ
  transaction : Transaction
  wallclock : ℕ

def WfVote (v : Vote) : Prop :=
  v.from_pk.length = 32 ∧ WfTransaction v.transaction ∧ v.wallclock < 256 ^ 8

def encVote (v : Vote) : Option (List ℕ) :=
  (encTransaction v.transaction).map fun tb =>
    v.from_pk ++ (tb ++ toLE 8 v.wallclock)

def decVote (l : List ℕ) : Option (Vote × List ℕ) :=
  (decFixed 32 l).bind fun f =>
  (decTransaction f.2).bind fun t =>
  (decUInt 8 t.2).map fun w => (⟨f.1, t.1, w.1⟩, w.2)

/-- A `(Slot, Hash)` pair: `u64` then 32 raw bytes. -/
def encSlotHash (p : ℕ × List ℕ) : List ℕ :=
  toLE 8 p.1 ++ p.2

def decSlotHash (l : List ℕ) : Option ((ℕ × List ℕ) × List ℕ) :=
  (decUInt 8 l).bind fun s =>
  (decFixed 32 s.2).map fun h => ((s.1, h.1), h.2)

def WfSlotHash (p : ℕ × List ℕ) : Prop :=
  p.1 < 256 ^ 8 ∧ p.2.length = 32

structure SnapshotHashes where
  from_pk : List ℕ
  hashes : List (ℕ × List ℕ)
  wallclock : ℕ

def WfSnapshotHashes (s : SnapshotHashes) : Prop :=
  s.from_pk.length = 32 ∧ s.hashes.length < 256 ^ 8 ∧
    (∀ p ∈ s.hashes, WfSlotHash p) ∧ s.wallclock < 256 ^ 8

def encSnapshotHashes (s : SnapshotHashes) : List ℕ :=
  s.from_pk ++ (encVec encSlotHash s.hashes ++ toLE 8 s.wallclock)

def decSnapshotHashes (l : List ℕ) : Option (SnapshotHashes × List ℕ) :=
  (decFixed 32 l).bind fun f =>
  (decVec decSlotHash f.2).bind fun h =>
  (decUInt 8 h.2).map fun w => (⟨f.1, h.1, w.1⟩, w.2)

structure LegacyVersion1 where
  major : ℕ
  minor : ℕ
  patch : ℕ
  commit : Option ℕ

def WfLegacyVersion1 (v : LegacyVersion1) : Prop :=
  v.major < 256 ^ 2 ∧ v.minor < 256 ^ 2 ∧ v.patch < 256 ^ 2 ∧
    ∀ c ∈ v.commit, c < 256 ^ 4

def encLegacyVersion1 (v : LegacyVersion1) : List ℕ :=
  toLE 2 v.major ++ (toLE 2 v.minor ++ (toLE 2 v.patch ++
    encOptionU32 v.commit))

def decLegacyVersion1 (l : List ℕ) : Option (LegacyVersion1 × List ℕ) :=
  (decUInt 2 l).bind fun a =>
  (decUInt 2 a.2).bind fun b =>
  (decUInt 2 b.2).bind fun c =>
  (decOptionU32 c.2).map fun d => (⟨a.1, b.1, c.1, d.1⟩, d.2)

structure LegacyVersion where
  from_pk : List ℕ
  wallclock : ℕ
  version : LegacyVersion1

def WfLegacyVersion (v : LegacyVersion) : Prop :=
  v.from_pk.length = 32 ∧ v.wallclock < 256 ^ 8 ∧ WfLegacyVersion1 v.version

def encLegacyVersion (v : LegacyVersion) : List ℕ :=
  v.from_pk ++ (toLE 8 v.wallclock ++ encLegacyVersion1 v.version)

def decLegacyVersion (l : List ℕ) : Option (LegacyVersion × List ℕ) :=
  (decFixed 32 l).bind fun f =>
  (decUInt 8 f.2).bind fun w =>
  (decLegacyVersion1 w.2).map fun v => (⟨f.1, w.1, v.1⟩, v.2)

structure LegacyVersion2 where
  major : ℕ
  minor : ℕ
  patch : ℕ
  commit : Option ℕ
  feature_set : ℕ

def WfLegacyVersion2 (v : LegacyVersion2) : Prop :=
  v.major < 256 ^ 2 ∧ v.minor < 256 ^ 2 ∧ v.patch < 256 ^ 2 ∧
    (∀ c ∈ v.commit, c < 256 ^ 4) ∧ v.feature_set < 256 ^ 4

def encLegacyVersion2 (v : LegacyVersion2) : List ℕ :=
  toLE 2 v.major ++ (toLE 2 v.minor ++ (toLE 2 v.patch ++
    (encOptionU32 v.commit ++ toLE 4 v.feature_set)))

def decLegacyVersion2 (l : List ℕ) : Option (LegacyVersion2 × List ℕ) :=
  (decUInt 2 l).bind fun a =>
  (decUInt 2 a.2).bind fun b =>
  (decUInt 2 b.2).bind fun c =>
  (decOptionU32 c.2).bind fun d =>
  (decUInt 4 d.2).map fun e => (⟨a.1, b.1, c.1, d.1, e.1⟩, e.2)

structure Version where
  from_pk : List ℕ
  wallclock : ℕ
  version : LegacyVersion2

def WfVersion (v : Version) : Prop :=
  v.from_pk.length = 32 ∧ v.wallclock < 256 ^ 8 ∧ WfLegacyVersion2 v.version

def encVersion (v : Version) : List ℕ :=
  v.from_pk ++ (toLE 8 v.wallclock ++ encLegacyVersion2 v.version)

def decVersion (l : List ℕ) : Option (Version × List ℕ) :=
  (decFixed 32 l).bind fun f =>
  (decUInt 8 f.2).bind fun w =>
  (decLegacyVersion2 w.2).map fun v => (⟨f.1, w.1, v.1⟩, v.2)

structure NodeInstance where
  from_pk : List ℕ
  wallclock : ℕ
  timestamp : ℕ
  token : ℕ

def WfNodeInstance (n : NodeInstance) : Prop :=
  n.from_pk.length = 32 ∧ n.wallclock < 256 ^ 8 ∧ n.timestamp < 256 ^ 8 ∧
    n.token < 256 ^ 8

def encNodeInstance (n : NodeInstance) : List ℕ :=
  n.from_pk ++ (toLE 8 n.wallclock ++ (toLE 8 n.timestamp ++ toLE 8 n.token))

def decNodeInstance (l : List ℕ) : Option (NodeInstance × List ℕ) :=
  (decFixed 32 l).bind fun f =>
  (decUInt 8 f.2).bind fun w =>
  (decUInt 8 w.2).bind fun t =>
  (decUInt 8 t.2).map fun k => (⟨f.1, w.1, t.1, k.1⟩, k.2)

structure Flate2 where
  first_slot : ℕ
  num : ℕ
  compressed : List ℕ

def WfFlate2 (f : Flate2) : Prop :=
  f.first_slot < 256 ^ 8 ∧ f.num < 256 ^ 8 ∧
    f.compressed.length < 256 ^ 8 ∧ ∀ b ∈ f.compressed, b < 256

def encFlate2 (f : Flate2) : List ℕ :=
  toLE 8 f.first_slot ++ (toLE 8 f.num ++ encVec (toLE 1) f.compressed)

def decFlate2 (l : List ℕ) : Option (Flate2 × List ℕ) :=
  (decUInt 8 l).bind fun s =>
  (decUInt 8 s.2).bind fun n =>
  (decVec (decUInt 1) n.2).map fun c => (⟨s.1, n.1, c.1⟩, c.2)

/-- `bv::BitVec<u8>` with serde: a struct of a boxed block slice (a bincode
sequence of `u8`) and a `u64` bit length. -/
structure BitVec8 where
  bits : List ℕ
  len : ℕ

def WfBitVec8 (b : BitVec8) : Prop :=
  b.bits.length < 256 ^ 8 ∧ (∀ x ∈ b.bits, x < 256) ∧ b.len < 256 ^ 8

def encBitVec8 (b : BitVec8) : List ℕ :=
  encVec (toLE 1) b.bits ++ toLE 8 b.len

def decBitVec8 (l : List ℕ) : Option (BitVec8 × List ℕ) :=
  (decVec (decUInt 1) l).bind fun b =>
  (decUInt 8 b.2).map fun n => (⟨b.1, n.1⟩, n.2)

structure Uncompressed where
  first_slot : ℕ
  num : ℕ
  slots : BitVec8

def WfUncompressed (u : Uncompressed) : Prop :=
  u.first_slot < 256 ^ 8 ∧ u.num < 256 ^ 8 ∧ WfBitVec8 u.slots

def encUncompressed (u : Uncompressed) : List ℕ :=
  toLE 8 u.first_slot ++ (toLE 8 u.num ++ encBitVec8 u.slots)

def decUncompressed (l : List ℕ) : Option (Uncompressed × List ℕ) :=
  (decUInt 8 l).bind fun s =>
  (decUInt 8 s.2).bind fun n =>
  (decBitVec8 n.2).map fun b => (⟨s.1, n.1, b.1⟩, b.2)

inductive CompressedSlots where
  | flate2 (f : Flate2)
  | uncompressed (u : Uncompressed)

def WfCompressedSlots : CompressedSlots → Prop
  | .flate2 f => WfFlate2 f
  | .uncompressed u => WfUncompressed u

def encCompressedSlots : CompressedSlots → List ℕ
  | .flate2 f => toLE 4 0 ++ encFlate2 f
  | .uncompressed u => toLE 4 1 ++ encUncompressed u

def decCompressedSlots (l : List ℕ) : Option (CompressedSlots × List ℕ) :=
  (decUInt 4 l).bind fun p =>
    match p.1 with
    | 0 => (decFlate2 p.2).map fun f => (CompressedSlots.flate2 f.1, f.2)
    | 1 => (decUncompressed p.2).map fun u =>
        (CompressedSlots.uncompressed u.1, u.2)
    | _ => none

structure EpochSlots where
  from_pk : List ℕ
  slots : List CompressedSlots
  wallclock : ℕ

def WfEpochSlots (e : EpochSlots) : Prop :=
  e.from_pk.length = 32 ∧ e.slots.length < 256 ^ 8 ∧
    (∀ s ∈ e.slots, WfCompressedSlots s) ∧ e.wallclock < 256 ^ 8

def encEpochSlots (e : EpochSlots) : List ℕ :=
  e.from_pk ++ (encVec encCompressedSlots e.slots ++ toLE 8 e.wallclock)

def decEpochSlots (l : List ℕ) : Option (EpochSlots × List ℕ) :=
  (decFixed 32 l).bind fun f =>
  (decVec decCompressedSlots f.2).bind fun s =>
  (decUInt 8 s.2).map fun w => (⟨f.1, s.1, w.1⟩, w.2)

inductive DeprecatedCompressionType where
  | uncompressed
  | gzip
  | bzip2

def encDeprecatedCompressionType : DeprecatedCompressionType → List ℕ
  | .uncompressed => toLE 4 0
  | .gzip => toLE 4 1
  | .bzip2 => toLE 4 2

def decDeprecatedCompressionType (l : List ℕ) :
    Option (DeprecatedCompressionType × List ℕ) :=
  (decUInt 4 l).bind fun p =>
    match p.1 with
    | 0 => some (DeprecatedCompressionType.uncompressed, p.2)
    | 1 => some (DeprecatedCompressionType.gzip, p.2)
    | 2 => some (DeprecatedCompressionType.bzip2, p.2)
    | _ => none

structure DeprecatedEpochIncompleteSlots where
  first : ℕ
  compression : DeprecatedCompressionType
  compressed_list : List ℕ

def WfDeprecatedEpochIncompleteSlots (d : DeprecatedEpochIncompleteSlots) :
    Prop :=
  d.first < 256 ^ 8 ∧ d.compressed_list.length < 256 ^ 8 ∧
    ∀ b ∈ d.compressed_list, b < 256

def encDeprecatedEpochIncompleteSlots (d : DeprecatedEpochIncompleteSlots) :
    List ℕ :=
  toLE 8 d.first ++ (encDeprecatedCompressionType d.compression ++
    encVec (toLE 1) d.compressed_list)

def decDeprecatedEpochIncompleteSlots (l : List ℕ) :
    Option (DeprecatedEpochIncompleteSlots × List ℕ) :=
  (decUInt 8 l).bind fun f =>
  (decDeprecatedCompressionType f.2).bind fun c =>
  (decVec (decUInt 1) c.2).map fun b => (⟨f.1, c.1, b.1⟩, b.2)

/-- `LowestSlot`; the `BTreeSet<Slot>` field is modelled as its ascending
element list, which is exactly how serde writes it (a sequence). -/
structure LowestSlot where
  from_pk : List ℕ
  root : ℕ
  lowest : ℕ
  slots : List ℕ
  stash : List DeprecatedEpochIncompleteSlots
  wallclock : ℕ

def WfLowestSlot (s : LowestSlot) : Prop :=
  s.from_pk.length = 32 ∧ s.root < 256 ^ 8 ∧ s.lowest < 256 ^ 8 ∧
    s.slots.length < 256 ^ 8 ∧ (∀ x ∈ s.slots, x < 256 ^ 8) ∧
    s.slots.Chain' (· < ·) ∧
    s.stash.length < 256 ^ 8 ∧
    (∀ d ∈ s.stash, WfDeprecatedEpochIncompleteSlots d) ∧
    s.wallclock < 256 ^ 8

def encLowestSlot (s : LowestSlot) : List ℕ :=
  s.from_pk ++ (toLE 8 s.root ++ (toLE 8 s.lowest ++
    (encVec (toLE 8) s.slots ++ (encVec encDeprecatedEpochIncompleteSlots
      s.stash ++ toLE 8 s.wallclock))))

def decLowestSlot (l : List ℕ) : Option (LowestSlot × List ℕ) :=
  (decFixed 32 l).bind fun f =>
  (decUInt 8 f.2).bind fun r =>
  (decUInt 8 r.2).bind fun lo =>
  (decVec (decUInt 8) lo.2).bind fun sl =>
  (decVec decDeprecatedEpochIncompleteSlots sl.2).bind fun st =>
  (decUInt 8 st.2).map fun w => (⟨f.1, r.1, lo.1, sl.1, st.1, w.1⟩, w.2)

structure IncrementalSnapshotHashes where
  from_pk : List ℕ
  base : ℕ × List ℕ
  hashes : List (ℕ × List ℕ)
  wallclock : ℕ

def WfIncrementalSnapshotHashes (s : IncrementalSnapshotHashes) : Prop :=
  s.from_pk.length = 32 ∧ WfSlotHash s.base ∧ s.hashes.length < 256 ^ 8 ∧
    (∀ p ∈ s.hashes, WfSlotHash p) ∧ s.wallclock < 256 ^ 8

def encIncrementalSnapshotHashes (s : IncrementalSnapshotHashes) : List ℕ :=
  s.from_pk ++ (encSlotHash s.base ++ (encVec encSlotHash s.hashes ++
    toLE 8 s.wallclock))

def decIncrementalSnapshotHashes (l : List ℕ) :
    Option (IncrementalSnapshotHashes × List ℕ) :=
  (decFixed 32 l).bind fun f =>
  (decSlotHash f.2).bind fun b =>
  (decVec decSlotHash b.2).bind fun h =>
  (decUInt 8 h.2).map fun w => (⟨f.1, b.1, h.1, w.1⟩, w.2)

/-! ## `CrdsData` (lines 190–205): the closed tagged union -/

inductive CrdsData where
  | legacyContactInfo (ci : LegacyContactInfo)
  | vote (index : ℕ) (v : Vote)
  | lowestSlot (index : ℕ) (ls : LowestSlot)
  | snapshotHashes (sh : SnapshotHashes)
  | accountsHashes (sh : SnapshotHashes)
  | epochSlots (index : ℕ) (es : EpochSlots)
  | legacyVersion (lv : LegacyVersion)
  | version (v : Version)
  | nodeInstance (ni : NodeInstance)
  | duplicateShred
  | incrementalSnapshotHashes (ish : IncrementalSnapshotHashes)
  | contactInfo

def WfCrdsData : CrdsData → Prop
  | .legacyContactInfo ci => WfLegacyContactInfo ci
  | .vote i v => i < 256 ∧ WfVote v
  | .lowestSlot i ls => i < 256 ∧ WfLowestSlot ls
  | .snapshotHashes sh => WfSnapshotHashes sh
  | .accountsHashes sh => WfSnapshotHashes sh
  | .epochSlots i es => i < 256 ∧ WfEpochSlots es
  | .legacyVersion lv => WfLegacyVersion lv
  | .version v => WfVersion v
  | .nodeInstance ni => WfNodeInstance ni
  | .duplicateShred => True
  | .incrementalSnapshotHashes ish => WfIncrementalSnapshotHashes ish
  | .contactInfo => True

/-- `bincode::serialize::<CrdsData>`: a `u32` variant tag followed by the
variant payload.  The only failure path is the `short_vec` length overflow
inside a `Vote`'s transaction; the reserved variants `DuplicateShred()` and
`ContactInfo()` carry no payload and encode as their tag alone. -/
def encCrdsData : CrdsData → Option (List ℕ)
  | .legacyContactInfo ci => some (toLE 4 0 ++ encLegacyContactInfo ci)
  | .vote i v => (encVote v).map fun vb => toLE 4 1 ++ (toLE 1 i ++ vb)
  | .lowestSlot i ls => some (toLE 4 2 ++ (toLE 1 i ++ encLowestSlot ls))
  | .snapshotHashes sh => some (toLE 4 3 ++ encSnapshotHashes sh)
  | .accountsHashes sh => some (toLE 4 4 ++ encSnapshotHashes sh)
  | .epochSlots i es => some (toLE 4 5 ++ (toLE 1 i ++ encEpochSlots es))
  | .legacyVersion lv => some (toLE 4 6 ++ encLegacyVersion lv)
  | .version v => some (toLE 4 7 ++ encVersion v)
  | .nodeInstance ni => some (toLE 4 8 ++ encNodeInstance ni)
  | .duplicateShred => some (toLE 4 9)
  | .incrementalSnapshotHashes ish =>
      some (toLE 4 10 ++ encIncrementalSnapshotHashes ish)
  | .contactInfo => some (toLE 4 11)

/-- `bincode::deserialize::<CrdsData>`: read the `u32` tag, then the
variant payload; an out-of-range tag is an error. -/
def decCrdsData (l : List ℕ) : Option (CrdsData × List ℕ) :=
  (decUInt 4 l).bind fun p =>
    match p.1 with
    | 0 => (decLegacyContactInfo p.2).map fun c =>
        (CrdsData.legacyContactInfo c.1, c.2)
    | 1 => (decUInt 1 p.2).bind fun i =>
        (decVote i.2).map fun v => (CrdsData.vote i.1 v.1, v.2)
    | 2 => (decUInt 1 p.2).bind fun i =>
        (decLowestSlot i.2).map fun s => (CrdsData.lowestSlot i.1 s.1, s.2)
    | 3 => (decSnapshotHashes p.2).map fun s =>
        (CrdsData.snapshotHashes s.1, s.2)
    | 4 => (decSnapshotHashes p.2).map fun s =>
        (CrdsData.accountsHashes s.1, s.2)
    | 5 => (decUInt 1 p.2).bind fun i =>
        (decEpochSlots i.2).map fun e => (CrdsData.epochSlots i.1 e.1, e.2)
    | 6 => (decLegacyVersion p.2).map fun v =>
        (CrdsData.legacyVersion v.1, v.2)
    | 7 => (decVersion p.2).map fun v => (CrdsData.version v.1, v.2)
    | 8 => (decNodeInstance p.2).map fun n =>
        (CrdsData.nodeInstance n.1, n.2)
    | 9 => some (CrdsData.duplicateShred, p.2)
    | 10 => (decIncrementalSnapshotHashes p.2).map fun s =>
        (CrdsData.incrementalSnapshotHashes s.1, s.2)
    | 11 => some (CrdsData.contactInfo, p.2)
    | _ => none

/-- Does a `CrdsData` value use the reserved `DuplicateShred()` variant? -/
def CrdsData.isDuplicateShred : CrdsData → Bool
  | .duplicateShred => true
  | _ => false

/-- Does a `CrdsData` value use the reserved `ContactInfo()` variant? -/
def CrdsData.isContactInfo : CrdsData → Bool
  | .contactInfo => true
  | _ => false

/-! ## Signing capability and `CrdsValue` (lines 207–219) -/

/-- The external asymmetric signing capability (`solana_sdk` `Keypair` /
`Signer`): a public key projection, message signing, and verification of a
signature (64 bytes, modelled as a byte list) against a public key.  The
spec consumes these as capabilities; theorems state the contract they are
assumed to satisfy. -/
structure SignScheme (K P : Type) where
  pubkey : K → P
  sign_message : K → List ℕ → List ℕ
  verify : P → List ℕ → List ℕ → Bool

structure CrdsValue where
  signature : List ℕ
  data : CrdsData

/-- `CrdsValue::new_signed(data, keypair)`: canonically serialize `data`
(`bincode::serialize`), sign exactly those bytes, and return
`{signature, data}`.  The source's `.expect("failed to serialize CrdsData")`
makes a serialization failure a panic, modelled as `none`. -/
def CrdsValue.new_signed {K P : Type} (S : SignScheme K P) (data : CrdsData)
    (keypair : K) : Option CrdsValue :=
  (encCrdsData data).map fun signable_data =>
    { signature := S.sign_message keypair signable_data, data := data }

/-- Modelled from the spec: `verify(value, claimed_public_key) -> bool`
re-serializes `value.data` with the same canonical encoding and checks the
signature against `claimed_public_key` (spec §4.1); `src/protocol.rs`
defines no verifier of its own.  A serialization failure is again fatal. -/
def CrdsValue.verify_value {K P : Type} (S : SignScheme K P) (pk : P)
    (v : CrdsValue) : Option Bool :=
  (encCrdsData v.data).map fun b => S.verify pk b v.signature

/-! ## Partitioning filter (lines 221–254) -/

/-- `u64::checked_shl`: `none` when the shift amount is 64 or more,
otherwise the value shifted left with the high bits discarded (Rust `<<`
keeps only the low 64 bits; discarded bits are not an overflow). -/
def checked_shl (x n : ℕ) : Option ℕ :=
  if n < 64 then some ((x <<< n) % 2 ^ 64) else none

/-- `u64::checked_shr`: `none` when the shift amount is 64 or more. -/
def checked_shr (x n : ℕ) : Option ℕ :=
  if n < 64 then some (x >>> n) else none

/-- `compute_mask(seed, mask_bits)` from `CrdsFilter::default`:

```
assert!(seed <= 2u64.pow(mask_bits));
let seed: u64 = seed.checked_shl(64 - mask_bits).unwrap_or(0x0);
seed | (!0u64).checked_shr(mask_bits).unwrap_or(!0x0)
```

`none` models a panic: either `2u64.pow(mask_bits)` overflowing a `u64`
(any `mask_bits ≥ 64`) or the `assert!` failing.  When `mask_bits < 64`,
`64 - mask_bits` cannot underflow and `checked_shr` always succeeds. -/
def compute_mask (seed mask_bits : ℕ) : Option ℕ :=
  if 2 ^ 64 ≤ 2 ^ mask_bits then none
  else if seed ≤ 2 ^ mask_bits then
    some (((checked_shl seed (64 - mask_bits)).getD 0) |||
      ((checked_shr (2 ^ 64 - 1) mask_bits).getD (2 ^ 64 - 1)))
  else none

/-- Structural helper for the ceiling of `log₂` (fuel recursion; the fuel
argument only bounds the recursion depth). -/
def ceilLog2Aux : ℕ → ℕ → ℕ
  | 0, _ => 0
  | fuel + 1, q => if q ≤ 1 then 0 else ceilLog2Aux fuel ((q + 1) / 2) + 1

/-- Least `m` with `q ≤ 2 ^ m` (for `q ≥ 1`): the ceiling of `log₂ q`. -/
def ceilLog2 (q : ℕ) : ℕ :=
  ceilLog2Aux q q

/-- `mask_bits(num_items, max_items)` from `CrdsFilter::default`:

```
((num_items / max_items).log2().ceil()).max(0.0) as u32
```

modelled exactly over the naturals: `max 0 ⌈log₂ (num_items / max_items)⌉`
equals 0 when `num_items ≤ max_items` (the log is ≤ 0, clamped by
`.max(0.0)`), and otherwise `⌈log₂ q⌉` for the rational
`q = num_items / max_items`, which equals `ceilLog2 ⌈q⌉` because `2 ^ m` is
an integer.  The `f64` computation agrees whenever rounding does not cross
an integer boundary of the log, in particular on the constants the source
uses (512/1287 and the spec's 3000/1287). -/
def mask_bits (num_items max_items : ℕ) : ℕ :=
  if num_items ≤ max_items then 0
  else ceilLog2 ((num_items + max_items - 1) / max_items)

/-- `CrdsFilter`; the probabilistic membership filter itself
(`solana_bloom::bloom::Bloom<Hash>`) is an external collaborator, so the
`filter` field is an abstract type. -/
structure CrdsFilter (B : Type) where
  filter : B
  mask : ℕ
  mask_bits : ℕ

/-- `CrdsFilter::default()`: fixed parameters `max_items = 1287`,
`FALSE_RATE = 0.1`, `max_bits = 7424`, `num_items = 512`; the bloom filter
is built by the external `Bloom::random(max_items, FALSE_RATE, max_bits)`,
passed in as `bloomRandom`. -/
def CrdsFilter.default {B : Type} (bloomRandom : ℕ → ℚ → ℕ → B) :
    Option (CrdsFilter B) :=
  let max_items : ℕ := 1287
  let num_items : ℕ := 512
  let mb : ℕ := GossipProtocol.mask_bits num_items max_items
  (compute_mask 0 mb).map fun m =>
    { filter := bloomRandom max_items (1 / 10) 7424, mask := m,
      mask_bits := mb }

/-! ## Ping / Pong (lines 256–291) -/

/-- `PingGeneric<T>`; Rust field `from` is `from_pk` here. -/
structure PingGeneric (T : Type) where
  from_pk : List ℕ
  token : T
  signature : List ℕ

/-- Number of bytes in the random ping token. -/
def GOSSIP_PING_TOKEN_SIZE : ℕ := 32

/-- `Ping = PingGeneric<[u8; 32]>`; the token is its 32 raw bytes. -/
abbrev Ping := PingGeneric (List ℕ)

def WfPing (p : Ping) : Prop :=
  p.from_pk.length = 32 ∧ p.token.length = GOSSIP_PING_TOKEN_SIZE ∧
    (∀ b ∈ p.token, b < 256) ∧ p.signature.length = 64

/-- `bincode::serialize` of a `[u8; 32]` token: the 32 raw bytes, no
length prefix (serde fixed-size arrays are tuples). -/
def encToken32 (t : List ℕ) : Option (List ℕ) :=
  some t

/-- `Pong`; the responder identity has the public-key type `P` of the
signing capability. -/
structure Pong (P : Type) where
  from_pk : P
  hash : List ℕ
  signature : List ℕ

/-- The ASCII bytes of the source constant `PING_PONG_HASH_PREFIX`, i.e.
`"SOLANA_PING_PONG".as_bytes()` (the name here avoids a Lean keyword
clash). -/
def PING_PONG_HASH_DOMAIN : List ℕ :=
  [83, 79, 76, 65, 78, 65, 95, 80, 73, 78, 71, 95, 80, 79, 78, 71]

/-- `solana_sdk::hash::hashv`: hash the concatenation of the slices with
the externally supplied hash function. -/
def hashv (hashFn : List ℕ → List ℕ) (vals : List (List ℕ)) : List ℕ :=
  hashFn vals.flatten

/-- `Pong::new(ping, keypair)` (the spec's `Pong::respond`): serialize the
received token, hash `domain_prefix ++ serialized_token`, and return
`{from: keypair.pubkey(), hash, signature: sign(hash)}`.  The `?` on the
token serialization propagates a serialization error (`none`). -/
def Pong.new {K P T : Type} (hashFn : List ℕ → List ℕ) (S : SignScheme K P)
    (encT : T → Option (List ℕ)) (ping : PingGeneric T) (keypair : K) :
    Option (Pong P) :=
  (encT ping.token).map fun token =>
    let h := hashv hashFn [PING_PONG_HASH_DOMAIN, token]
    { from_pk := S.pubkey keypair, hash := h,
      signature := S.sign_message keypair h }

/-! ## Concrete instances used by the witnesses -/

/-- A concrete signing scheme satisfying the deterministic-signature
contract: the "signature" of a message is the signer tag prepended to the
message, and verification checks exactly that. -/
def demoScheme : SignScheme ℕ ℕ where
  pubkey := fun k => k
  sign_message := fun k m => k :: m
  verify := fun p m s => decide (s = p :: m)

/-- A small concrete `CrdsData` value used by witnesses. -/
def demoNodeInstance : CrdsData :=
  CrdsData.nodeInstance ⟨List.replicate 32 7, 3, 5, 9⟩

/-- A concrete ping carrying token `[0]`, used by witnesses. -/
def demoPingA : Ping :=
  ⟨[], [0], []⟩

/-- A concrete ping carrying token `[1]`, used by witnesses. -/
def demoPingB : Ping :=
  ⟨[], [1], []⟩

/-! ## Round-trip lemmas for the wire-encoding primitives -/

theorem toLE_length (k n : ℕ) : (toLE k n).length = k := by
  induction k generalizing n with
  | zero => rfl
  | succ k ih => simp [toLE, ih]

theorem fromLE_toLE (k n : ℕ) (h : n < 256 ^ k) : fromLE (toLE k n) = n := by
  induction k generalizing n with
  | zero =>
      simp only [pow_zero, Nat.lt_one_iff] at h
      subst h; rfl
  | succ k ih =>
      have h2 : n / 256 < 256 ^ k := by
        rw [Nat.div_lt_iff_lt_mul (by norm_num : (0:ℕ) < 256)]
        calc n < 256 ^ (k + 1) := h
        _ = 256 ^ k * 256 := by ring
      simp [toLE, fromLE, ih _ h2, Nat.mod_add_div]

theorem decFixed_rt (k : ℕ) (b : List ℕ) {r : List ℕ} (h : b.length = k) :
    decFixed k (b ++ r) = some (b, r) := by
  subst h
  simp [decFixed, List.take_left, List.drop_left]

theorem decUInt_rt (k n : ℕ) {r : List ℕ} (h : n < 256 ^ k) :
    decUInt k (toLE k n ++ r) = some (n, r) := by
  simp [decUInt, decFixed_rt k _ (toLE_length k n), fromLE_toLE k n h]

theorem encList_nil {α : Type} (enc : α → List ℕ) : encList enc [] = [] := rfl

theorem encList_cons {α : Type} (enc : α → List ℕ) (x : α) (xs : List α) :
    encList enc (x :: xs) = enc x ++ encList enc xs := by
  simp [encList]

theorem decList_rt {α : Type} (enc : α → List ℕ)
    (dec : List ℕ → Option (α × List ℕ)) (P : α → Prop)
    (hrt : ∀ (a : α) (r : List ℕ), P a → dec (enc a ++ r) = some (a, r)) :
    ∀ (xs : List α) (r : List ℕ), (∀ x ∈ xs, P x) →
      decList dec xs.length (encList enc xs ++ r) = some (xs, r) := by
  intro xs
  induction xs with
  | nil => intro r _; simp [encList, decList]
  | cons x xs ih =>
      intro r h
      have hx : P x := h x (by simp)
      have hxs : ∀ y ∈ xs, P y := fun y hy => h y (by simp [hy])
      simp only [encList_cons, List.append_assoc, List.length_cons, decList]
      rw [hrt x _ hx]
      simp [ih r hxs]

theorem decVec_rt {α : Type} (enc : α → List ℕ)
    (dec : List ℕ → Option (α × List ℕ)) (P : α → Prop)
    (hrt : ∀ (a : α) (r : List ℕ), P a → dec (enc a ++ r) = some (a, r))
    (xs : List α) {r : List ℕ} (hlen : xs.length < 256 ^ 8)
    (hall : ∀ x ∈ xs, P x) :
    decVec dec (encVec enc xs ++ r) = some (xs, r) := by
  simp only [encVec, decVec, List.append_assoc]
  rw [decUInt_rt 8 xs.length hlen]
  simp [decList_rt enc dec P hrt xs r hall]

theorem decShortU16_rt (n : ℕ) {r : List ℕ} (h : n < 65536) :
    decShortU16 (encShortU16 n ++ r) = some (n, r) := by
  by_cases h1 : n < 128
  · simp [encShortU16, decShortU16, h1]
  · by_cases h2 : n < 16384
    · have hb0 : ¬ n % 128 + 128 < 128 := by omega
      have hb1a : ¬ n / 128 = 0 := by omega
      have hb1b : n / 128 < 128 := by omega
      simp only [encShortU16, if_neg h1, if_pos h2, List.cons_append,
        List.nil_append, decShortU16, if_neg hb0, if_neg hb1a, if_pos hb1b]
      have : n % 128 + 128 - 128 + 128 * (n / 128) = n := by omega
      rw [this]
    · have hb0 : ¬ n % 128 + 128 < 128 := by omega
      have hb1a : ¬ (n / 128) % 128 + 128 = 0 := by omega
      have hb1b : ¬ (n / 128) % 128 + 128 < 128 := by omega
      have hb2 : ¬ (n / 16384 = 0 ∨ 4 ≤ n / 16384) := by omega
      simp only [encShortU16, if_neg h1, if_neg h2, List.cons_append,
        List.nil_append, decShortU16, if_neg hb0, if_neg hb1a, if_neg hb1b,
        if_neg hb2]
      have : n % 128 + 128 - 128 + 128 * ((n / 128) % 128 + 128 - 128) +
          16384 * (n / 16384) = n := by omega
      rw [this]

theorem decShortVec_rt {α : Type} (enc : α → List ℕ)
    (dec : List ℕ → Option (α × List ℕ)) (P : α → Prop)
    (hrt : ∀ (a : α) (r : List ℕ), P a → dec (enc a ++ r) = some (a, r))
    (xs : List α) (hlen : xs.length < 65536) (hall : ∀ x ∈ xs, P x) :
    ∃ b, encShortVec enc xs = some b ∧
      ∀ r, decShortVec dec (b ++ r) = some (xs, r) := by
  refine ⟨encShortU16 xs.length ++ encList enc xs,
    by simp [encShortVec, hlen], fun r => ?_⟩
  simp only [decShortVec, List.append_assoc]
  rw [decShortU16_rt xs.length hlen]
  simp [decList_rt enc dec P hrt xs r hall]

theorem encListO_rt {α : Type} (enc : α → Option (List ℕ))
    (dec : List ℕ → Option (α × List ℕ)) (P : α → Prop)
    (hrt : ∀ a : α, P a →
      ∃ b, enc a = some b ∧ ∀ r, dec (b ++ r) = some (a, r)) :
    ∀ xs : List α, (∀ x ∈ xs, P x) → ∃ b, encListO enc xs = some b ∧
      ∀ r, decList dec xs.length (b ++ r) = some (xs, r) := by
  intro xs
  induction xs with
  | nil => exact fun _ => ⟨[], rfl, fun r => by simp [decList]⟩
  | cons x xs ih =>
      intro h
      obtain ⟨bx, hbx, hdx⟩ := hrt x (h x (by simp))
      obtain ⟨bs, hbs, hds⟩ := ih (fun y hy => h y (by simp [hy]))
      refine ⟨bx ++ bs, by simp [encListO, hbx, hbs], fun r => ?_⟩
      simp only [List.length_cons, decList, List.append_assoc, hdx (bs ++ r)]
      simp [hds r]

theorem decShortVecO_rt {α : Type} (enc : α → Option (List ℕ))
    (dec : List ℕ → Option (α × List ℕ)) (P : α → Prop)
    (hrt : ∀ a : α, P a →
      ∃ b, enc a = some b ∧ ∀ r, dec (b ++ r) = some (a, r))
    (xs : List α) (hlen : xs.length < 65536) (hall : ∀ x ∈ xs, P x) :
    ∃ b, encShortVecO enc xs = some b ∧
      ∀ r, decShortVec dec (b ++ r) = some (xs, r) := by
  obtain ⟨bs, hbs, hds⟩ := encListO_rt enc dec P hrt xs hall
  refine ⟨encShortU16 xs.length ++ bs,
    by simp [encShortVecO, hlen, hbs], fun r => ?_⟩
  simp only [decShortVec, List.append_assoc]
  rw [decShortU16_rt xs.length hlen]
  simp [hds r]

theorem decOptionU32_rt (c : Option ℕ) {r : List ℕ} (h : ∀ x ∈ c, x < 256 ^ 4) :
    decOptionU32 (encOptionU32 c ++ r) = some (c, r) := by
  cases c with
  | none => simp [encOptionU32, decOptionU32]
  | some x =>
      simp only [encOptionU32, List.cons_append, decOptionU32]
      rw [decUInt_rt 4 x (h x (by simp))]
      rfl

/-! ## Round-trip lemmas for the payload structures -/

theorem bind_some_intro {α β : Type} {o : Option α} {f : α → Option β}
    {a : α} {b : β} (e1 : o = some a) (e2 : f a = some b) :
    o.bind f = some b := by
  rw [e1, Option.some_bind, e2]

theorem map_some_intro {α β : Type} {o : Option α} {f : α → β}
    {a : α} {b : β} (e1 : o = some a) (e2 : f a = b) :
    o.map f = some b := by
  rw [e1, ← e2]; rfl

theorem decSockAddr_rt (sa : SockAddr) {r : List ℕ} (h : WfSockAddr sa) :
    decSockAddr (encSockAddr sa ++ r) = some (sa, r) := by
  cases sa with
  | v4 ip port =>
      obtain ⟨h1, h2⟩ := h
      simp only [encSockAddr, decSockAddr, List.append_assoc]
      rw [decUInt_rt 4 0 (by norm_num)]
      simp [decFixed_rt 4 ip h1, decUInt_rt 2 port h2]
  | v6 ip port =>
      obtain ⟨h1, h2⟩ := h
      simp only [encSockAddr, decSockAddr, List.append_assoc]
      rw [decUInt_rt 4 1 (by norm_num)]
      simp [decFixed_rt 16 ip h1, decUInt_rt 2 port h2]

theorem decLegacyContactInfo_rt (c : LegacyContactInfo) {r : List ℕ}
    (h : WfLegacyContactInfo c) :
    decLegacyContactInfo (encLegacyContactInfo c ++ r) = some (c, r) := by
  obtain ⟨h1, h2, h3, h4, h5, h6, h7, h8, h9, h10, h11, h12, h13⟩ := h
  have hb : encLegacyContactInfo c ++ r =
      c.id ++ (encSockAddr c.gossip ++ (encSockAddr c.tvu ++
      (encSockAddr c.tvu_forwards ++ (encSockAddr c.repair ++
      (encSockAddr c.tpu ++ (encSockAddr c.tpu_forwards ++
      (encSockAddr c.tpu_vote ++ (encSockAddr c.rpc ++
      (encSockAddr c.rpc_pubsub ++ (encSockAddr c.serve_repair ++
      (toLE 8 c.wallclock ++ (toLE 2 c.shred_version ++ r)))))))))))) := by
    simp [encLegacyContactInfo]
  rw [hb, decLegacyContactInfo]
  refine bind_some_intro (decFixed_rt 32 c.id h1) ?_
  refine bind_some_intro (decSockAddr_rt _ h2) ?_
  refine bind_some_intro (decSockAddr_rt _ h3) ?_
  refine bind_some_intro (decSockAddr_rt _ h4) ?_
  refine bind_some_intro (decSockAddr_rt _ h5) ?_
  refine bind_some_intro (decSockAddr_rt _ h6) ?_
  refine bind_some_intro (decSockAddr_rt _ h7) ?_
  refine bind_some_intro (decSockAddr_rt _ h8) ?_
  refine bind_some_intro (decSockAddr_rt _ h9) ?_
  refine bind_some_intro (decSockAddr_rt _ h10) ?_
  refine bind_some_intro (decSockAddr_rt _ h11) ?_
  refine bind_some_intro (decUInt_rt 8 _ h12) ?_
  exact map_some_intro (decUInt_rt 2 _ h13) rfl

theorem decSlotHash_rt (p : ℕ × List ℕ) {r : List ℕ} (h : WfSlotHash p) :
    decSlotHash (encSlotHash p ++ r) = some (p, r) := by
  obtain ⟨h1, h2⟩ := h
  simp only [encSlotHash, decSlotHash, List.append_assoc]
  rw [decUInt_rt 8 p.1 h1]
  simp [decFixed_rt 32 p.2 h2]

theorem decSnapshotHashes_rt (s : SnapshotHashes) {r : List ℕ}
    (h : WfSnapshotHashes s) :
    decSnapshotHashes (encSnapshotHashes s ++ r) = some (s, r) := by
  obtain ⟨h1, h2, h3, h4⟩ := h
  simp only [encSnapshotHashes, decSnapshotHashes, List.append_assoc]
  rw [decFixed_rt 32 s.from_pk h1]
  simp [decVec_rt encSlotHash decSlotHash WfSlotHash
    (fun a r ha => decSlotHash_rt a ha) s.hashes h2 h3, decUInt_rt 8 _ h4]

theorem decLegacyVersion1_rt (v : LegacyVersion1) {r : List ℕ}
    (h : WfLegacyVersion1 v) :
    decLegacyVersion1 (encLegacyVersion1 v ++ r) = some (v, r) := by
  obtain ⟨h1, h2, h3, h4⟩ := h
  simp only [encLegacyVersion1, decLegacyVersion1, List.append_assoc]
  rw [decUInt_rt 2 _ h1]
  simp [decUInt_rt 2 _ h2, decUInt_rt 2 _ h3, decOptionU32_rt _ h4]

theorem decLegacyVersion_rt (v : LegacyVersion) {r : List ℕ}
    (h : WfLegacyVersion v) :
    decLegacyVersion (encLegacyVersion v ++ r) = some (v, r) := by
  obtain ⟨h1, h2, h3⟩ := h
  simp only [encLegacyVersion, decLegacyVersion, List.append_assoc]
  rw [decFixed_rt 32 v.from_pk h1]
  simp [decUInt_rt 8 _ h2, decLegacyVersion1_rt _ h3]

theorem decLegacyVersion2_rt (v : LegacyVersion2) {r : List ℕ}
    (h : WfLegacyVersion2 v) :
    decLegacyVersion2 (encLegacyVersion2 v ++ r) = some (v, r) := by
  obtain ⟨h1, h2, h3, h4, h5⟩ := h
  simp only [encLegacyVersion2, decLegacyVersion2, List.append_assoc]
  rw [decUInt_rt 2 _ h1]
  simp [decUInt_rt 2 _ h2, decUInt_rt 2 _ h3, decOptionU32_rt _ h4,
    decUInt_rt 4 _ h5]

theorem decVersion_rt (v : Version) {r : List ℕ} (h : WfVersion v) :
    decVersion (encVersion v ++ r) = some (v, r) := by
  obtain ⟨h1, h2, h3⟩ := h
  simp only [encVersion, decVersion, List.append_assoc]
  rw [decFixed_rt 32 v.from_pk h1]
  simp [decUInt_rt 8 _ h2, decLegacyVersion2_rt _ h3]

theorem decNodeInstance_rt (n : NodeInstance) {r : List ℕ}
    (h : WfNodeInstance n) :
    decNodeInstance (encNodeInstance n ++ r) = some (n, r) := by
  obtain ⟨h1, h2, h3, h4⟩ := h
  simp only [encNodeInstance, decNodeInstance, List.append_assoc]
  rw [decFixed_rt 32 n.from_pk h1]
  simp [decUInt_rt 8 _ h2, decUInt_rt 8 _ h3, decUInt_rt 8 _ h4]

theorem decFlate2_rt (f : Flate2) {r : List ℕ} (h : WfFlate2 f) :
    decFlate2 (encFlate2 f ++ r) = some (f, r) := by
  obtain ⟨h1, h2, h3, h4⟩ := h
  simp only [encFlate2, decFlate2, List.append_assoc]
  rw [decUInt_rt 8 _ h1]
  simp [decUInt_rt 8 _ h2, decVec_rt (toLE 1) (decUInt 1) (· < 256)
    (fun a r ha => decUInt_rt 1 a (by simpa using ha)) f.compressed h3 h4]

theorem decBitVec8_rt (b : BitVec8) {r : List ℕ} (h : WfBitVec8 b) :
    decBitVec8 (encBitVec8 b ++ r) = some (b, r) := by
  obtain ⟨h1, h2, h3⟩ := h
  simp only [encBitVec8, decBitVec8, List.append_assoc]
  rw [decVec_rt (toLE 1) (decUInt 1) (· < 256)
    (fun a r ha => decUInt_rt 1 a (by simpa using ha)) b.bits h1 h2]
  simp [decUInt_rt 8 _ h3]

theorem decUncompressed_rt (u : Uncompressed) {r : List ℕ}
    (h : WfUncompressed u) :
    decUncompressed (encUncompressed u ++ r) = some (u, r) := by
  obtain ⟨h1, h2, h3⟩ := h
  simp only [encUncompressed, decUncompressed, List.append_assoc]
  rw [decUInt_rt 8 _ h1]
  simp [decUInt_rt 8 _ h2, decBitVec8_rt _ h3]

theorem decCompressedSlots_rt (s : CompressedSlots) {r : List ℕ}
    (h : WfCompressedSlots s) :
    decCompressedSlots (encCompressedSlots s ++ r) = some (s, r) := by
  cases s with
  | flate2 f =>
      simp only [encCompressedSlots, decCompressedSlots, List.append_assoc]
      rw [decUInt_rt 4 0 (by norm_num)]
      simp [decFlate2_rt f h]
  | uncompressed u =>
      simp only [encCompressedSlots, decCompressedSlots, List.append_assoc]
      rw [decUInt_rt 4 1 (by norm_num)]
      simp [decUncompressed_rt u h]

theorem decEpochSlots_rt (e : EpochSlots) {r : List ℕ} (h : WfEpochSlots e) :
    decEpochSlots (encEpochSlots e ++ r) = some (e, r) := by
  obtain ⟨h1, h2, h3, h4⟩ := h
  simp only [encEpochSlots, decEpochSlots, List.append_assoc]
  rw [decFixed_rt 32 e.from_pk h1]
  simp [decVec_rt encCompressedSlots decCompressedSlots WfCompressedSlots
    (fun a r ha => decCompressedSlots_rt a ha) e.slots h2 h3,
    decUInt_rt 8 _ h4]

theorem decDeprecatedCompressionType_rt (c : DeprecatedCompressionType)
    {r : List ℕ} :
    decDeprecatedCompressionType (encDeprecatedCompressionType c ++ r) =
      some (c, r) := by
  cases c with
  | uncompressed =>
      simp only [encDeprecatedCompressionType, decDeprecatedCompressionType]
      rw [decUInt_rt 4 0 (by norm_num)]; rfl
  | gzip =>
      simp only [encDeprecatedCompressionType, decDeprecatedCompressionType]
      rw [decUInt_rt 4 1 (by norm_num)]; rfl
  | bzip2 =>
      simp only [encDeprecatedCompressionType, decDeprecatedCompressionType]
      rw [decUInt_rt 4 2 (by norm_num)]; rfl

theorem decDeprecatedEpochIncompleteSlots_rt
    (d : DeprecatedEpochIncompleteSlots) {r : List ℕ}
    (h : WfDeprecatedEpochIncompleteSlots d) :
    decDeprecatedEpochIncompleteSlots
      (encDeprecatedEpochIncompleteSlots d ++ r) = some (d, r) := by
  obtain ⟨h1, h2, h3⟩ := h
  simp only [encDeprecatedEpochIncompleteSlots,
    decDeprecatedEpochIncompleteSlots, List.append_assoc]
  rw [decUInt_rt 8 _ h1]
  simp [decDeprecatedCompressionType_rt d.compression,
    decVec_rt (toLE 1) (decUInt 1) (· < 256)
      (fun a r ha => decUInt_rt 1 a (by simpa using ha)) d.compressed_list
      h2 h3]

theorem decLowestSlot_rt (s : LowestSlot) {r : List ℕ} (h : WfLowestSlot s) :
    decLowestSlot (encLowestSlot s ++ r) = some (s, r) := by
  obtain ⟨h1, h2, h3, h4, h5, _, h7, h8, h9⟩ := h
  simp only [encLowestSlot, decLowestSlot, List.append_assoc]
  rw [decFixed_rt 32 s.from_pk h1]
  simp [decUInt_rt 8 _ h2, decUInt_rt 8 _ h3,
    decVec_rt (toLE 8) (decUInt 8) (· < 256 ^ 8)
      (fun a r ha => decUInt_rt 8 a ha) s.slots h4 h5,
    decVec_rt encDeprecatedEpochIncompleteSlots
      decDeprecatedEpochIncompleteSlots WfDeprecatedEpochIncompleteSlots
      (fun a r ha => decDeprecatedEpochIncompleteSlots_rt a ha) s.stash h7 h8,
    decUInt_rt 8 _ h9]

theorem decIncrementalSnapshotHashes_rt (s : IncrementalSnapshotHashes)
    {r : List ℕ} (h : WfIncrementalSnapshotHashes s) :
    decIncrementalSnapshotHashes (encIncrementalSnapshotHashes s ++ r) =
      some (s, r) := by
  obtain ⟨h1, h2, h3, h4, h5⟩ := h
  simp only [encIncrementalSnapshotHashes, decIncrementalSnapshotHashes,
    List.append_assoc]
  rw [decFixed_rt 32 s.from_pk h1]
  simp [decSlotHash_rt _ h2,
    decVec_rt encSlotHash decSlotHash WfSlotHash
      (fun a r ha => decSlotHash_rt a ha) s.hashes h3 h4, decUInt_rt 8 _ h5]

theorem decMessageHeader_rt (m : MessageHeader) {r : List ℕ}
    (h : WfMessageHeader m) :
    decMessageHeader (encMessageHeader m ++ r) = some (m, r) := by
  obtain ⟨h1, h2, h3⟩ := h
  simp only [encMessageHeader, decMessageHeader, List.append_assoc]
  rw [decUInt_rt 1 _ (by simpa using h1)]
  simp [decUInt_rt 1 _ (by simpa using h2 : m.num_readonly_signed_accounts < 256 ^ 1),
    decUInt_rt 1 _ (by simpa using h3 : m.num_readonly_unsigned_accounts < 256 ^ 1)]

theorem decCompiledInstruction_rt (ci : CompiledInstruction)
    (h : WfCompiledInstruction ci) :
    ∃ b, encCompiledInstruction ci = some b ∧
      ∀ r, decCompiledInstruction (b ++ r) = some (ci, r) := by
  obtain ⟨hp, ha1, ha2, hd1, hd2⟩ := h
  obtain ⟨ab, hab, hdab⟩ := decShortVec_rt (toLE 1) (decUInt 1) (· < 256)
    (fun a r ha => decUInt_rt 1 a (by simpa using ha)) ci.accounts ha1 ha2
  obtain ⟨db, hdb, hddb⟩ := decShortVec_rt (toLE 1) (decUInt 1) (· < 256)
    (fun a r ha => decUInt_rt 1 a (by simpa using ha)) ci.data hd1 hd2
  refine ⟨toLE 1 ci.program_id_index ++ (ab ++ db),
    by simp [encCompiledInstruction, hab, hdb], fun r => ?_⟩
  have hb : (toLE 1 ci.program_id_index ++ (ab ++ db)) ++ r =
      toLE 1 ci.program_id_index ++ (ab ++ (db ++ r)) := by simp
  rw [hb, decCompiledInstruction]
  refine bind_some_intro (decUInt_rt 1 _ (by simpa using hp)) ?_
  refine bind_some_intro (hdab (db ++ r)) ?_
  exact map_some_intro (hddb r) rfl

theorem decMessage_rt (m : Message) (h : WfMessage m) :
    ∃ b, encMessage m = some b ∧
      ∀ r, decMessage (b ++ r) = some (m, r) := by
  obtain ⟨hh, hk1, hk2, hbh, hi1, hi2⟩ := h
  obtain ⟨kb, hkb, hdkb⟩ := decShortVec_rt (fun k => k) (decFixed 32)
    (fun k => k.length = 32) (fun a r ha => decFixed_rt 32 a ha)
    m.account_keys hk1 hk2
  obtain ⟨ib, hib, hdib⟩ := decShortVecO_rt encCompiledInstruction
    decCompiledInstruction WfCompiledInstruction
    (fun a ha => decCompiledInstruction_rt a ha) m.instructions hi1 hi2
  refine ⟨encMessageHeader m.header ++ (kb ++ (m.recent_blockhash ++ ib)),
    by simp [encMessage, hkb, hib], fun r => ?_⟩
  have hb : (encMessageHeader m.header ++ (kb ++ (m.recent_blockhash ++ ib)))
      ++ r = encMessageHeader m.header ++ (kb ++ (m.recent_blockhash ++
      (ib ++ r))) := by simp
  rw [hb, decMessage]
  refine bind_some_intro (decMessageHeader_rt m.header hh) ?_
  refine bind_some_intro (hdkb (m.recent_blockhash ++ (ib ++ r))) ?_
  refine bind_some_intro (decFixed_rt 32 m.recent_blockhash hbh) ?_
  exact map_some_intro (hdib r) rfl

theorem decTransaction_rt (t : Transaction) (h : WfTransaction t) :
    ∃ b, encTransaction t = some b ∧
      ∀ r, decTransaction (b ++ r) = some (t, r) := by
  obtain ⟨hs1, hs2, hm⟩ := h
  obtain ⟨sb, hsb, hdsb⟩ := decShortVec_rt (fun s => s) (decFixed 64)
    (fun s => s.length = 64) (fun a r ha => decFixed_rt 64 a ha)
    t.signatures hs1 hs2
  obtain ⟨mb, hmb, hdmb⟩ := decMessage_rt t.message hm
  refine ⟨sb ++ mb, by simp [encTransaction, hsb, hmb], fun r => ?_⟩
  have hb : (sb ++ mb) ++ r = sb ++ (mb ++ r) := by simp
  rw [hb, decTransaction]
  refine bind_some_intro (hdsb (mb ++ r)) ?_
  exact map_some_intro (hdmb r) rfl

theorem decVote_rt (v : Vote) (h : WfVote v) :
    ∃ b, encVote v = some b ∧ ∀ r, decVote (b ++ r) = some (v, r) := by
  obtain ⟨hf, ht, hw⟩ := h
  obtain ⟨tb, htb, hdtb⟩ := decTransaction_rt v.transaction ht
  refine ⟨v.from_pk ++ (tb ++ toLE 8 v.wallclock),
    by simp [encVote, htb], fun r => ?_⟩
  have hb : (v.from_pk ++ (tb ++ toLE 8 v.wallclock)) ++ r =
      v.from_pk ++ (tb ++ (toLE 8 v.wallclock ++ r)) := by simp
  rw [hb, decVote]
  refine bind_some_intro (decFixed_rt 32 v.from_pk hf) ?_
  refine bind_some_intro (hdtb (toLE 8 v.wallclock ++ r)) ?_
  exact map_some_intro (decUInt_rt 8 _ hw) rfl

/-- Round-trip of the full `CrdsData` wire encoding: on every well-formed
value of every variant, serialization succeeds and deserialization of the
produced bytes (under any continuation `r`) returns the value unchanged. -/
theorem decCrdsData_rt (v : CrdsData) (h : WfCrdsData v) :
    ∃ b, encCrdsData v = some b ∧ ∀ r, decCrdsData (b ++ r) = some (v, r) := by
  cases v with
  | legacyContactInfo ci =>
      refine ⟨toLE 4 0 ++ encLegacyContactInfo ci, rfl, fun r => ?_⟩
      rw [List.append_assoc, decCrdsData]
      refine bind_some_intro (decUInt_rt 4 0 (by norm_num)) ?_
      exact map_some_intro (decLegacyContactInfo_rt ci h) rfl
  | vote i vv =>
      obtain ⟨hi, hv⟩ := h
      obtain ⟨vb, hvb, hdvb⟩ := decVote_rt vv hv
      refine ⟨toLE 4 1 ++ (toLE 1 i ++ vb),
        by simp [encCrdsData, hvb], fun r => ?_⟩
      have hb : (toLE 4 1 ++ (toLE 1 i ++ vb)) ++ r =
          toLE 4 1 ++ (toLE 1 i ++ (vb ++ r)) := by simp
      rw [hb, decCrdsData]
      refine bind_some_intro (decUInt_rt 4 1 (by norm_num)) ?_
      refine bind_some_intro (decUInt_rt 1 i (by simpa using hi)) ?_
      exact map_some_intro (hdvb r) rfl
  | lowestSlot i ls =>
      obtain ⟨hi, hl⟩ := h
      refine ⟨toLE 4 2 ++ (toLE 1 i ++ encLowestSlot ls), rfl, fun r => ?_⟩
      have hb : (toLE 4 2 ++ (toLE 1 i ++ encLowestSlot ls)) ++ r =
          toLE 4 2 ++ (toLE 1 i ++ (encLowestSlot ls ++ r)) := by simp
      rw [hb, decCrdsData]
      refine bind_some_intro (decUInt_rt 4 2 (by norm_num)) ?_
      refine bind_some_intro (decUInt_rt 1 i (by simpa using hi)) ?_
      exact map_some_intro (decLowestSlot_rt ls hl) rfl
  | snapshotHashes sh =>
      refine ⟨toLE 4 3 ++ encSnapshotHashes sh, rfl, fun r => ?_⟩
      rw [List.append_assoc, decCrdsData]
      refine bind_some_intro (decUInt_rt 4 3 (by norm_num)) ?_
      exact map_some_intro (decSnapshotHashes_rt sh h) rfl
  | accountsHashes sh =>
      refine ⟨toLE 4 4 ++ encSnapshotHashes sh, rfl, fun r => ?_⟩
      rw [List.append_assoc, decCrdsData]
      refine bind_some_intro (decUInt_rt 4 4 (by norm_num)) ?_
      exact map_some_intro (decSnapshotHashes_rt sh h) rfl
  | epochSlots i es =>
      obtain ⟨hi, he⟩ := h
      refine ⟨toLE 4 5 ++ (toLE 1 i ++ encEpochSlots es), rfl, fun r => ?_⟩
      have hb : (toLE 4 5 ++ (toLE 1 i ++ encEpochSlots es)) ++ r =
          toLE 4 5 ++ (toLE 1 i ++ (encEpochSlots es ++ r)) := by simp
      rw [hb, decCrdsData]
      refine bind_some_intro (decUInt_rt 4 5 (by norm_num)) ?_
      refine bind_some_intro (decUInt_rt 1 i (by simpa using hi)) ?_
      exact map_some_intro (decEpochSlots_rt es he) rfl
  | legacyVersion lv =>
      refine ⟨toLE 4 6 ++ encLegacyVersion lv, rfl, fun r => ?_⟩
      rw [List.append_assoc, decCrdsData]
      refine bind_some_intro (decUInt_rt 4 6 (by norm_num)) ?_
      exact map_some_intro (decLegacyVersion_rt lv h) rfl
  | version vv =>
      refine ⟨toLE 4 7 ++ encVersion vv, rfl, fun r => ?_⟩
      rw [List.append_assoc, decCrdsData]
      refine bind_some_intro (decUInt_rt 4 7 (by norm_num)) ?_
      exact map_some_intro (decVersion_rt vv h) rfl
  | nodeInstance ni =>
      refine ⟨toLE 4 8 ++ encNodeInstance ni, rfl, fun r => ?_⟩
      rw [List.append_assoc, decCrdsData]
      refine bind_some_intro (decUInt_rt 4 8 (by norm_num)) ?_
      exact map_some_intro (decNodeInstance_rt ni h) rfl
  | duplicateShred =>
      refine ⟨toLE 4 9, rfl, fun r => ?_⟩
      rw [decCrdsData]
      exact bind_some_intro (decUInt_rt 4 9 (by norm_num)) rfl
  | incrementalSnapshotHashes ish =>
      refine ⟨toLE 4 10 ++ encIncrementalSnapshotHashes ish, rfl,
        fun r => ?_⟩
      rw [List.append_assoc, decCrdsData]
      refine bind_some_intro (decUInt_rt 4 10 (by norm_num)) ?_
      exact map_some_intro (decIncrementalSnapshotHashes_rt ish h) rfl
  | contactInfo =>
      refine ⟨toLE 4 11, rfl, fun r => ?_⟩
      rw [decCrdsData]
      exact bind_some_intro (decUInt_rt 4 11 (by norm_num)) rfl

/-! ## Arithmetic lemmas for `compute_mask` -/

theorem shiftRight_lor (x y n : ℕ) :
    (x ||| y) >>> n = (x >>> n) ||| (y >>> n) := by
  apply Nat.eq_of_testBit_eq
  intro i
  simp [Nat.testBit_shiftRight, Nat.testBit_lor]

theorem mul_sub_one_div (A B : ℕ) (hA : 0 < A) (hB : 0 < B) :
    (A * B - 1) / A = B - 1 := by
  have hAB : 0 < A * B := Nat.mul_pos hA hB
  apply Nat.div_eq_of_lt_le
  · rw [Nat.sub_mul, one_mul, mul_comm B A]
    omega
  · have hc : (B - 1 + 1) * A = A * B := by
      rw [Nat.sub_add_cancel hB, mul_comm]
    omega

theorem allOnes_shr (m : ℕ) (hm : m ≤ 64) :
    (2 ^ 64 - 1) >>> m = 2 ^ (64 - m) - 1 := by
  rw [Nat.shiftRight_eq_div_pow]
  have h1 : (2:ℕ) ^ 64 = 2 ^ m * 2 ^ (64 - m) := by
    rw [← pow_add]; congr 1; omega
  rw [h1, mul_sub_one_div _ _ (by positivity) (by positivity)]

/-- Evaluation of `compute_mask` when its assertion passes: for
`mask_bits ≤ 63` and `seed ≤ 2 ^ mask_bits` it returns the or of the
(wrapping) left-shifted seed and the low suffix of set bits. -/
theorem compute_mask_eq (m s : ℕ) (hm : m ≤ 63) (hs : s ≤ 2 ^ m) :
    compute_mask s m =
      some (((s <<< (64 - m)) % 2 ^ 64) ||| (2 ^ (64 - m) - 1)) := by
  have hlt : (2:ℕ) ^ m < 2 ^ 64 := Nat.pow_lt_pow_right one_lt_two (by omega)
  unfold compute_mask
  rw [if_neg (by omega), if_pos hs]
  congr 1
  by_cases h0 : m = 0
  · subst h0
    simp only [checked_shl, checked_shr, Nat.sub_zero]
    rw [if_neg (by omega), if_pos (by omega)]
    simp [Nat.shiftLeft_eq, Nat.mul_mod_left, allOnes_shr 0 (by omega)]
  · have hsh : 64 - m < 64 := by omega
    simp only [checked_shl, checked_shr]
    rw [if_pos hsh, if_pos (show m < 64 by omega)]
    simp only [Option.getD_some]
    rw [allOnes_shr m (by omega)]

/-- Evaluation of `compute_mask` on an in-range seed (`seed < 2 ^ mask_bits`):
no bits wrap, and the mask is the seed shifted to the top `mask_bits` bits
over a suffix of `64 - mask_bits` set bits. -/
theorem compute_mask_eval (m s : ℕ) (hm : m ≤ 63) (hs : s < 2 ^ m) :
    compute_mask s m = some ((s * 2 ^ (64 - m)) ||| (2 ^ (64 - m) - 1)) := by
  rw [compute_mask_eq m s hm (le_of_lt hs)]
  congr 2
  rw [Nat.shiftLeft_eq]
  apply Nat.mod_eq_of_lt
  calc s * 2 ^ (64 - m) < 2 ^ m * 2 ^ (64 - m) :=
        (Nat.mul_lt_mul_right (by positivity)).mpr hs
  _ = 2 ^ 64 := by rw [← pow_add]; congr 1; omega

/-- The top `mask_bits` bits of an in-range mask recover the seed. -/
theorem mask_top_bits (m s : ℕ) :
    ((s * 2 ^ (64 - m)) ||| (2 ^ (64 - m) - 1)) >>> (64 - m) = s := by
  rw [shiftRight_lor]
  have h1 : (s * 2 ^ (64 - m)) >>> (64 - m) = s := by
    rw [Nat.shiftRight_eq_div_pow, Nat.mul_div_cancel _ (by positivity)]
  have h2 : (2 ^ (64 - m) - 1) >>> (64 - m) = 0 := by
    rw [Nat.shiftRight_eq_div_pow]
    apply Nat.div_eq_of_lt
    have : (0:ℕ) < 2 ^ (64 - m) := by positivity
    omega
  rw [h1, h2, Nat.or_zero]

/-! ## Helper lemmas for the claims -/

theorem set_ne_of_ne (l : List ℕ) (i c : ℕ) (hi : i < l.length)
    (hc : c ≠ l.getD i 0) : l.set i c ≠ l := by
  intro he
  apply hc
  have h1 : (l.set i c).getD i 0 = c := by
    rw [List.getD_eq_getElem _ _ (by simpa using hi)]
    exact List.getElem_set_self _
  rw [he] at h1
  exact h1.symm

theorem pong_new_eq {K P : Type} (hashFn : List ℕ → List ℕ)
    (S : SignScheme K P) (keypair : K) (p : Ping) :
    Pong.new hashFn S encToken32 p keypair =
      some { from_pk := S.pubkey keypair,
             hash := hashFn (PING_PONG_HASH_DOMAIN ++ p.token),
             signature := S.sign_message keypair
               (hashFn (PING_PONG_HASH_DOMAIN ++ p.token)) } := by
  unfold Pong.new encToken32 hashv
  simp

/-! ## The claims -/

/-- C1: `CrdsValue::new_signed(d, k)` canonically serializes `d`, signs
exactly those serialized bytes with `k`, and returns a `CrdsValue` whose
`data` field is the input `d` and whose `signature` field is that
signature; when serialization of `d` fails, the call is fatal (no value is
returned, modelling the `.expect` panic). -/
theorem claim_c1_new_signed {K P : Type} (S : SignScheme K P) (keypair : K)
    (d : CrdsData) :
    (∀ b, encCrdsData d = some b →
      CrdsValue.new_signed S d keypair =
        some { signature := S.sign_message keypair b, data := d }) ∧
    (encCrdsData d = none → CrdsValue.new_signed S d keypair = none) := by
  constructor
  · intro b hb
    unfold CrdsValue.new_signed
    rw [hb]; rfl
  · intro hb
    unfold CrdsValue.new_signed
    rw [hb]; rfl

theorem claim_c1_witness :
    CrdsValue.new_signed demoScheme CrdsData.duplicateShred 7 =
      some { signature := demoScheme.sign_message 7 (toLE 4 9),
             data := CrdsData.duplicateShred } :=
  (claim_c1_new_signed demoScheme 7 CrdsData.duplicateShred).1 (toLE 4 9) rfl

/-- C2: for a signing capability with deterministic, message-binding
signatures (the contract the spec assigns to the external ed25519
capability), verifying the value produced by `new_signed` against the
signer's public key succeeds, and any single-byte change to either the
serialized data or the signature makes verification fail. -/
theorem claim_c2_sign_verify {K P : Type} (S : SignScheme K P) (keypair : K)
    (hS : ∀ (k : K) (msg sig : List ℕ),
      S.verify (S.pubkey k) msg sig = true ↔ sig = S.sign_message k msg)
    (hBind : ∀ (k : K) (m m2 : List ℕ),
      S.verify (S.pubkey k) m2 (S.sign_message k m) = true → m2 = m)
    (d : CrdsData) (b : List ℕ) (hser : encCrdsData d = some b) :
    CrdsValue.verify_value S (S.pubkey keypair)
        { signature := S.sign_message keypair b, data := d } = some true ∧
    CrdsValue.new_signed S d keypair =
      some { signature := S.sign_message keypair b, data := d } ∧
    (∀ i c, i < b.length → c ≠ b.getD i 0 →
      S.verify (S.pubkey keypair) (b.set i c)
        (S.sign_message keypair b) = false) ∧
    (∀ i c, i < (S.sign_message keypair b).length →
      c ≠ (S.sign_message keypair b).getD i 0 →
      CrdsValue.verify_value S (S.pubkey keypair)
        { signature := (S.sign_message keypair b).set i c, data := d } =
          some false) := by
  refine ⟨?_, ?_, ?_, ?_⟩
  · unfold CrdsValue.verify_value
    rw [hser]
    have hv := (hS keypair b (S.sign_message keypair b)).mpr rfl
    simp [hv]
  · unfold CrdsValue.new_signed
    rw [hser]; rfl
  · intro i c hi hc
    by_contra hne
    rw [Bool.not_eq_false] at hne
    exact set_ne_of_ne b i c hi hc (hBind keypair b (b.set i c) hne)
  · intro i c hi hc
    unfold CrdsValue.verify_value
    rw [hser]
    have hne2 : (S.sign_message keypair b).set i c ≠
        S.sign_message keypair b := set_ne_of_ne _ i c hi hc
    have hv : S.verify (S.pubkey keypair) b
        ((S.sign_message keypair b).set i c) = false := by
      by_contra hx
      rw [Bool.not_eq_false] at hx
      exact hne2 ((hS keypair b _).mp hx)
    simp [hv]

theorem claim_c2_witness :
    CrdsValue.verify_value demoScheme 7
      { signature := demoScheme.sign_message 7 (toLE 4 9),
        data := CrdsData.duplicateShred } = some true :=
  (claim_c2_sign_verify demoScheme 7
    (by intro k msg sig; simp [demoScheme])
    (by intro k m m2 hv; simp [demoScheme] at hv; exact hv.symm)
    CrdsData.duplicateShred (toLE 4 9) rfl).1

/-- C3: for every well-formed `CrdsData` value of every variant (the
reserved empty-payload variants included), canonical serialization
succeeds and deserializing the produced bytes yields the value again. -/
theorem claim_c3_roundtrip (v : CrdsData) (h : WfCrdsData v) :
    ∃ b, encCrdsData v = some b ∧ decCrdsData b = some (v, []) := by
  obtain ⟨b, hb, hd⟩ := decCrdsData_rt v h
  exact ⟨b, hb, by simpa using hd []⟩

theorem claim_c3_witness :
    ∃ b, encCrdsData demoNodeInstance = some b ∧
      decCrdsData b = some (demoNodeInstance, []) :=
  claim_c3_roundtrip demoNodeInstance
    (by norm_num [demoNodeInstance, WfCrdsData, WfNodeInstance])

/-- C4: the default `CrdsFilter` built from the fixed parameters
(capacity 1287, false-positive rate 0.1, 7424 filter bits, assumed item
count 512) has `mask_bits = 0` and `mask` equal to the all-ones 64-bit
word; and the `mask_bits` computation at `n = 3000`, capacity 1287,
yields 2. -/
theorem claim_c4_default_filter {B : Type} (bloomRandom : ℕ → ℚ → ℕ → B) :
    CrdsFilter.default bloomRandom =
      some { filter := bloomRandom 1287 (1 / 10) 7424, mask := 2 ^ 64 - 1,
             mask_bits := 0 } ∧
    mask_bits 3000 1287 = 2 := by
  constructor
  · have h0 : mask_bits 512 1287 = 0 := rfl
    have h1 : compute_mask 0 0 = some (2 ^ 64 - 1) := by
      rw [compute_mask_eval 0 0 (by norm_num) (by norm_num)]
      simp
    simp [CrdsFilter.default, h0, h1]
  · decide

/-- C5 (amended: `mask_bits` ranges over [0,63], not [0,64]): for a fixed
`mask_bits = m ≤ 63` the masks produced by `compute_mask` on seeds
`0 .. 2^m` are pairwise distinct, and the shards they describe (top `m`
bits fixed) cover the 64-bit hash space exactly once: every hash falls in
the shard of exactly one seed. -/
theorem claim_c5_partition (m : ℕ) (hm : m ≤ 63) :
    (∀ s1 s2 mk1 mk2, s1 < 2 ^ m → s2 < 2 ^ m →
      compute_mask s1 m = some mk1 → compute_mask s2 m = some mk2 →
      mk1 = mk2 → s1 = s2) ∧
    (∀ x, x < 2 ^ 64 → ∃! s, s < 2 ^ m ∧ ∃ mk, compute_mask s m = some mk ∧
      x >>> (64 - m) = mk >>> (64 - m)) := by
  have hpos : (0:ℕ) < 2 ^ (64 - m) := by positivity
  constructor
  · intro s1 s2 mk1 mk2 hs1 hs2 e1 e2 heq
    rw [compute_mask_eval m s1 hm hs1, Option.some.injEq] at e1
    rw [compute_mask_eval m s2 hm hs2, Option.some.injEq] at e2
    have := congrArg (fun t => t >>> (64 - m)) (e1.trans (heq.trans e2.symm))
    simpa [mask_top_bits m s1, mask_top_bits m s2] using this
  · intro x hx
    have hslt : x >>> (64 - m) < 2 ^ m := by
      rw [Nat.shiftRight_eq_div_pow]
      rw [Nat.div_lt_iff_lt_mul hpos]
      calc x < 2 ^ 64 := hx
      _ = 2 ^ m * 2 ^ (64 - m) := by rw [← pow_add]; congr 1; omega
    refine ⟨x >>> (64 - m), ⟨hslt, _, compute_mask_eval m _ hm hslt,
      (mask_top_bits m _).symm⟩, ?_⟩
    intro y hy
    obtain ⟨hylt, mk, hmk, hmem⟩ := hy
    rw [compute_mask_eval m y hm hylt, Option.some.injEq] at hmk
    rw [← hmk, mask_top_bits m y] at hmem
    exact hmem.symm

theorem claim_c5_witness :
    (∀ s1 s2 mk1 mk2, s1 < 2 ^ 3 → s2 < 2 ^ 3 →
      compute_mask s1 3 = some mk1 → compute_mask s2 3 = some mk2 →
      mk1 = mk2 → s1 = s2) ∧
    (∀ x, x < 2 ^ 64 → ∃! s, s < 2 ^ 3 ∧ ∃ mk, compute_mask s 3 = some mk ∧
      x >>> (64 - 3) = mk >>> (64 - 3)) :=
  claim_c5_partition 3 (by norm_num)

/-- C5 counterexample: the claim as stated admits `mask_bits = 64`, but
there `compute_mask` aborts for every seed — `2u64.pow(64)` overflows a
`u64` — so the masks for seeds `0 .. 2^64` do not exist at all, let alone
partition the space. -/
theorem claim_c5_counterexample :
    compute_mask 0 64 = none ∧ compute_mask 1 64 = none := by
  constructor <;> (unfold compute_mask; rw [if_pos (le_refl _)])

/-- C6: when `compute_mask`'s precondition is violated — `seed > 2^mask_bits`
or `mask_bits > 64` — the call fails loudly (the `assert!`, or the overflow
of `2u64.pow`, panics) instead of returning a truncated mask. -/
theorem claim_c6_precondition (seed m : ℕ)
    (h : 2 ^ m < seed ∨ 64 < m) :
    compute_mask seed m = none := by
  unfold compute_mask
  rcases h with h | h
  · by_cases hm : 2 ^ 64 ≤ 2 ^ m
    · rw [if_pos hm]
    · rw [if_neg hm, if_neg (by omega)]
  · rw [if_pos (Nat.pow_le_pow_right (by norm_num) (by omega))]

theorem claim_c6_witness : compute_mask 5 1 = none :=
  claim_c6_precondition 5 1 (Or.inl (by norm_num))

/-- C7: `Pong::new(ping, keypair)` hashes the fixed ASCII domain constant
`"SOLANA_PING_PONG"` concatenated with the serialized ping token, signs
that hash, and returns a Pong carrying the signer's public key, that hash,
and that signature. -/
theorem claim_c7_pong {K P : Type} (hashFn : List ℕ → List ℕ)
    (S : SignScheme K P) (keypair : K) (p : Ping) :
    Pong.new hashFn S encToken32 p keypair =
      some { from_pk := S.pubkey keypair,
             hash := hashFn (PING_PONG_HASH_DOMAIN ++ p.token),
             signature := S.sign_message keypair
               (hashFn (PING_PONG_HASH_DOMAIN ++ p.token)) } ∧
    PING_PONG_HASH_DOMAIN = "SOLANA_PING_PONG".data.map Char.toNat :=
  ⟨pong_new_eq hashFn S keypair p, by decide⟩

/-- C8: with a collision-free (injective) hash capability, the Pongs
answering two Pings with distinct tokens carry distinct hashes: a Pong is
bound to exactly one Ping token. -/
theorem claim_c8_pong_binding {K P : Type} (hashFn : List ℕ → List ℕ)
    (S : SignScheme K P) (keypair : K) (p1 p2 : Ping)
    (hinj : Function.Injective hashFn) (hne : p1.token ≠ p2.token) :
    ∃ q1 q2, Pong.new hashFn S encToken32 p1 keypair = some q1 ∧
      Pong.new hashFn S encToken32 p2 keypair = some q2 ∧
      q1.hash ≠ q2.hash := by
  refine ⟨_, _, pong_new_eq hashFn S keypair p1,
    pong_new_eq hashFn S keypair p2, ?_⟩
  intro he
  have he2 : hashFn (PING_PONG_HASH_DOMAIN ++ p1.token) =
      hashFn (PING_PONG_HASH_DOMAIN ++ p2.token) := he
  exact hne (List.append_cancel_left (hinj he2))

theorem claim_c8_witness :
    ∃ q1 q2, Pong.new id demoScheme encToken32 demoPingA 7 = some q1 ∧
      Pong.new id demoScheme encToken32 demoPingB 7 = some q2 ∧
      q1.hash ≠ q2.hash :=
  claim_c8_pong_binding id demoScheme 7 demoPingA demoPingB
    (fun a b h => h) (by decide)

/-- C9: the reserved variants `DuplicateShred()` and `ContactInfo()` carry
no payload: any two values of either variant are equal (no meaningful
content can be constructed through the public constructors, which here is
a type-level rather than runtime rejection), and each serializes as its
bare variant tag. -/
theorem claim_c9_reserved :
    (∀ a b : CrdsData, a.isDuplicateShred = true →
      b.isDuplicateShred = true → a = b) ∧
    (∀ a b : CrdsData, a.isContactInfo = true →
      b.isContactInfo = true → a = b) ∧
    encCrdsData CrdsData.duplicateShred = some (toLE 4 9) ∧
    encCrdsData CrdsData.contactInfo = some (toLE 4 11) := by
  have hd : ∀ a : CrdsData, a.isDuplicateShred = true →
      a = CrdsData.duplicateShred := by
    intro a ha
    cases a <;> first | rfl | simp [CrdsData.isDuplicateShred] at ha
  have hc : ∀ a : CrdsData, a.isContactInfo = true →
      a = CrdsData.contactInfo := by
    intro a ha
    cases a <;> first | rfl | simp [CrdsData.isContactInfo] at ha
  exact ⟨fun a b ha hb => (hd a ha).trans (hd b hb).symm,
    fun a b ha hb => (hc a ha).trans (hc b hb).symm, rfl, rfl⟩

theorem claim_c9_witness :
    CrdsData.duplicateShred = CrdsData.duplicateShred :=
  claim_c9_reserved.1 CrdsData.duplicateShred CrdsData.duplicateShred rfl rfl

/-- C10: for `1 ≤ m ≤ 63`, the boundary seed `2^m` passes `compute_mask`'s
assertion (which admits equality) and the shifted seed bit is silently
discarded, so the returned mask equals the one for seed 0 — the boundary
seed aliases the seed-0 shard instead of failing or being distinct. -/
theorem claim_c10_boundary_seed (m : ℕ) (h1 : 1 ≤ m) (h2 : m ≤ 63) :
    ∃ mk, compute_mask (2 ^ m) m = some mk ∧ compute_mask 0 m = some mk := by
  refine ⟨2 ^ (64 - m) - 1, ?_, ?_⟩
  · rw [compute_mask_eq m (2 ^ m) h2 le_rfl]
    congr 1
    have hz : (2 ^ m <<< (64 - m)) % 2 ^ 64 = 0 := by
      rw [Nat.shiftLeft_eq, ← pow_add]
      have he : m + (64 - m) = 64 := by omega
      rw [he, Nat.mod_self]
    rw [hz, Nat.zero_or]
  · rw [compute_mask_eval m 0 h2 (by positivity)]
    simp

theorem claim_c10_witness :
    ∃ mk, compute_mask (2 ^ 5) 5 = some mk ∧ compute_mask 0 5 = some mk :=
  claim_c10_boundary_seed 5 (by norm_num) (by norm_num)

end GossipProtocol
